import Mathlib

/-!
Verification of the binary-expression parser (`src/main.rs`).

The Rust source is shallowly embedded: panics become `Except` errors with a
discriminated `ParseError` kind (matching the spec's error table), slices
become `List String`, and the matching-close scan inside `parse_enclosed`
becomes the explicit recursive function `find_close` (returning the index of
the matching close brace relative to the slice it is given, or `none`).
-/

inductive Operator where
  | add
  | sub
  | mul
  | div
  | exp
deriving DecidableEq, Repr

def Operator.precedence : Operator → Int
  | .add | .sub => 10
  | .mul | .div => 100
  | .exp => 1000

def Operator.maybe : String → Option Operator
  | "+" => some .add
  | "-" => some .sub
  | "*" => some .mul
  | "/" => some .div
  | "^" => some .exp
  | _ => none

def Operator.cmp_precedence (a b : Operator) : Ordering :=
  compare a.precedence b.precedence

inductive Node where
  | Operation (op : Operator) (left right : Node)
  | Enclosure (inner : Node)
  | Leaf (s : String)
deriving DecidableEq, Repr

/-- The error kinds of the spec's error table; each corresponds to one panic
site in the Rust source. -/
inductive ParseError where
  | EmptyStream
  | LeadingOperator
  | UnmatchedClose
  | UnmatchedOpen
  | ExpectedOperator
deriving DecidableEq, Repr

def compose_with_precedence (op : Operator) (left : Node) (into : Node) : Node :=
  match into with
  | .Operation subnode_op subnode_left subnode_right =>
    match op.cmp_precedence subnode_op with
    | .lt | .eq =>
      .Operation op left (.Operation subnode_op subnode_left subnode_right)
    | .gt =>
      .Operation subnode_op (compose_with_precedence op left subnode_left) subnode_right
  | _ => .Operation op left into

/-- The scanning loop of `parse_enclosed`: searches `toks` for the close brace
matching an already-consumed open brace, with `opn` open braces currently
unmatched. Returns the index of the matching close brace, if any. -/
def find_close (toks : List String) (opn : Int) : Option Nat :=
  match toks with
  | [] => none
  | s :: rest =>
    if s = "(" then (find_close rest (opn + 1)).map (· + 1)
    else if s = ")" then
      if opn - 1 = 0 then some 0
      else (find_close rest (opn - 1)).map (· + 1)
    else (find_close rest opn).map (· + 1)

mutual

def parse (toks : List String) : Except ParseError Node :=
  match toks with
  | [] => .error .EmptyStream
  | first :: rest =>
    if (Operator.maybe first).isSome then .error .LeadingOperator
    else if first = ")" then .error .UnmatchedClose
    else if first = "(" then
      match find_close rest 1 with
      | none => .error .UnmatchedOpen
      | some c =>
        match parse (rest.take c) with
        | .error e => .error e
        | .ok inner => parse_rest (.Enclosure inner) (rest.drop (c + 1))
    else parse_rest (.Leaf first) rest
termination_by 2 * toks.length
decreasing_by
  all_goals simp [List.length_take, List.length_drop] <;> omega

def parse_rest (left : Node) (remaining : List String) : Except ParseError Node :=
  match remaining with
  | [] => .ok left
  | opTok :: rest2 =>
    match Operator.maybe opTok with
    | none => .error .ExpectedOperator
    | some op =>
      match parse rest2 with
      | .error e => .error e
      | .ok into => .ok (compose_with_precedence op left into)
termination_by 2 * remaining.length + 1
decreasing_by
  all_goals simp
  all_goals omega

end

/-- The source's `parse_enclosed`: parses a token stream assuming the
preceding token was an open brace, returning the enclosed expression and the
tokens after the matching close brace. -/
def parse_enclosed (toks : List String) : Except ParseError (Node × List String) :=
  match find_close toks 1 with
  | none => .error .UnmatchedOpen
  | some c =>
    match parse (toks.take c) with
    | .error e => .error e
    | .ok inner => .ok (.Enclosure inner, toks.drop (c + 1))

/-- A token that is neither an operator symbol nor a group delimiter, i.e.
one the parser treats as an identifier leaf. -/
def isIdent (t : String) : Prop :=
  Operator.maybe t = none ∧ t ≠ "(" ∧ t ≠ ")"

instance (t : String) : Decidable (isIdent t) := by
  unfold isIdent; infer_instance

/-- Boolean form of `isIdent`. -/
def identTok (t : String) : Bool :=
  (Operator.maybe t).isNone && t != "(" && t != ")"

/-- The input tokens that are neither operator symbols nor group delimiters,
in order. -/
def identTokens (toks : List String) : List String :=
  toks.filter identTok

/-- The leaves of a tree, read left to right (in-order traversal). -/
def Node.leaves : Node → List String
  | .Leaf s => [s]
  | .Operation _ l r => l.leaves ++ r.leaves
  | .Enclosure n => n.leaves

/-- `true` unless `n` is an `Operation` whose operator binds looser than
`op`. -/
def rootPrecBound (op : Operator) : Node → Bool
  | .Operation op2 _ _ => decide (op.precedence ≤ op2.precedence)
  | _ => true

/-- The right-spine precedence invariant: every `Operation` node whose right
child is also an `Operation` has precedence at most the right child's. -/
def rightSpineInv : Node → Bool
  | .Leaf _ => true
  | .Enclosure n => rightSpineInv n
  | .Operation op l r => rightSpineInv l && rightSpineInv r && rootPrecBound op r

/-- The depth counter of the parenthetical matcher, declaratively: starting
depth `d`, the depth after scanning the first `j` tokens of `toks` (each open
brace increments, each close brace decrements). -/
def depthCounter (d : Int) (toks : List String) (j : Nat) : Int :=
  d + ((toks.take j).countP (· == "(") : Int) - ((toks.take j).countP (· == ")") : Int)

/-- Structural size of a tree node (number of constructors). -/
def Node.size : Node → Nat
  | .Leaf _ => 1
  | .Enclosure n => n.size + 1
  | .Operation _ l r => l.size + r.size + 1

/-- The grammar `expr := term (operator term)*` of well-formed token
sequences, as a two-sorted inductive predicate: `WF true ts` means `ts` is a
single term (an identifier token, or a parenthesized well-formed non-empty
expression), `WF false ts` means `ts` is a well-formed expression (a term,
or a term followed by an operator symbol and a well-formed expression). -/
inductive WF : Bool → List String → Prop where
  | ident (t : String) : isIdent t → WF true [t]
  | group (ts : List String) : WF false ts → WF true ("(" :: ts ++ [")"])
  | single (ts : List String) : WF true ts → WF false ts
  | comp (ts : List String) (o : String) (op : Operator) (rest : List String) :
      WF true ts → Operator.maybe o = some op → WF false rest →
      WF false (ts ++ o :: rest)

theorem isIdent_iff_identTok (t : String) : isIdent t ↔ identTok t = true := by
  simp [isIdent, identTok, Option.isNone_iff_eq_none, and_assoc]

theorem parse_nil : parse [] = .error .EmptyStream := by
  simp [parse]

theorem parse_cons_opsym (t : String) (rest : List String)
    (h : (Operator.maybe t).isSome) :
    parse (t :: rest) = .error .LeadingOperator := by
  simp [parse, h]

theorem parse_cons_close (rest : List String) :
    parse (")" :: rest) = .error .UnmatchedClose := by
  simp [parse, Operator.maybe]

theorem parse_cons_open (rest : List String) :
    parse ("(" :: rest) =
      match parse_enclosed rest with
      | .error e => .error e
      | .ok (l, rem) => parse_rest l rem := by
  rw [parse]
  simp only [Operator.maybe, parse_enclosed]
  cases h : find_close rest 1 with
  | none => simp
  | some c =>
    simp only
    cases parse (rest.take c) <;> simp

theorem parse_cons_ident (t : String) (h : isIdent t) (rest : List String) :
    parse (t :: rest) = parse_rest (.Leaf t) rest := by
  rw [parse]
  simp [h.1, h.2.1, h.2.2]

theorem parse_rest_nil (left : Node) : parse_rest left [] = .ok left := by
  simp [parse_rest]

theorem parse_rest_cons_op (o : String) (op : Operator) (h : Operator.maybe o = some op)
    (left : Node) (rest2 : List String) :
    parse_rest left (o :: rest2) =
      match parse rest2 with
      | .error e => .error e
      | .ok into => .ok (compose_with_precedence op left into) := by
  rw [parse_rest]
  simp [h]

theorem parse_rest_cons_nonop (t : String) (h : Operator.maybe t = none)
    (left : Node) (rest2 : List String) :
    parse_rest left (t :: rest2) = .error .ExpectedOperator := by
  rw [parse_rest]
  simp [h]

theorem depthCounter_zero (d : Int) (toks : List String) : depthCounter d toks 0 = d := by
  simp [depthCounter]

theorem depthCounter_cons (d : Int) (s : String) (rest : List String) (j : Nat) :
    depthCounter d (s :: rest) (j + 1) =
      depthCounter (if s = "(" then d + 1 else if s = ")" then d - 1 else d) rest j := by
  by_cases h1 : s = "("
  · subst h1
    simp [depthCounter, List.take_succ_cons, List.countP_cons]
    ring
  · by_cases h2 : s = ")"
    · subst h2
      simp [depthCounter, List.take_succ_cons, List.countP_cons, h1]
      ring
    · simp [depthCounter, List.take_succ_cons, List.countP_cons, h1, h2]

/-- Soundness of the matching-close scan: if it returns index `i`, then `i`
is in range, the token there is a close brace, the depth counter reaches 0
just after position `i`, and at no earlier point. -/
theorem find_close_some (toks : List String) (d : Int) (i : Nat)
    (hd : 1 ≤ d) (h : find_close toks d = some i) :
    i < toks.length ∧ toks[i]? = some ")" ∧ depthCounter d toks (i + 1) = 0 ∧
      ∀ j, j ≤ i → depthCounter d toks j ≠ 0 := by
  induction toks generalizing d i with
  | nil => simp [find_close] at h
  | cons s rest ih =>
    rw [find_close] at h
    by_cases h1 : s = "("
    · rw [if_pos h1] at h
      obtain ⟨i', hi', rfl⟩ := Option.map_eq_some'.mp h
      obtain ⟨hlt, hat, hz, hmin⟩ := ih (d + 1) i' (by omega) hi'
      refine ⟨by simp only [List.length_cons]; omega, by simpa using hat, ?_, ?_⟩
      · rw [depthCounter_cons, if_pos h1]
        exact hz
      · intro j hj
        cases j with
        | zero => rw [depthCounter_zero]; omega
        | succ j' =>
          rw [depthCounter_cons, if_pos h1]
          exact hmin j' (by omega)
    · by_cases h2 : s = ")"
      · rw [if_neg h1, if_pos h2] at h
        by_cases h3 : d - 1 = 0
        · rw [if_pos h3] at h
          obtain rfl : i = 0 := by simpa using h.symm
          refine ⟨by simp, by simp [h2], ?_, ?_⟩
          · rw [depthCounter_cons, if_neg h1, if_pos h2, depthCounter_zero]
            omega
          · intro j hj
            obtain rfl : j = 0 := by omega
            rw [depthCounter_zero]
            omega
        · rw [if_neg h3] at h
          obtain ⟨i', hi', rfl⟩ := Option.map_eq_some'.mp h
          obtain ⟨hlt, hat, hz, hmin⟩ := ih (d - 1) i' (by omega) hi'
          refine ⟨by simp only [List.length_cons]; omega, by simpa using hat, ?_, ?_⟩
          · rw [depthCounter_cons, if_neg h1, if_pos h2]
            exact hz
          · intro j hj
            cases j with
            | zero => rw [depthCounter_zero]; omega
            | succ j' =>
              rw [depthCounter_cons, if_neg h1, if_pos h2]
              exact hmin j' (by omega)
      · rw [if_neg h1, if_neg h2] at h
        obtain ⟨i', hi', rfl⟩ := Option.map_eq_some'.mp h
        obtain ⟨hlt, hat, hz, hmin⟩ := ih d i' hd hi'
        refine ⟨by simp only [List.length_cons]; omega, by simpa using hat, ?_, ?_⟩
        · rw [depthCounter_cons, if_neg h1, if_neg h2]
          exact hz
        · intro j hj
          cases j with
          | zero => rw [depthCounter_zero]; omega
          | succ j' =>
            rw [depthCounter_cons, if_neg h1, if_neg h2]
            exact hmin j' (by omega)

/-- If the scan finds no matching close, the depth counter never reaches 0
anywhere in the slice. -/
theorem find_close_none (toks : List String) (d : Int) (hd : 1 ≤ d)
    (h : find_close toks d = none) :
    ∀ j, j ≤ toks.length → depthCounter d toks j ≠ 0 := by
  induction toks generalizing d with
  | nil =>
    intro j hj
    simp only [List.length_nil, Nat.le_zero] at hj
    subst hj
    rw [depthCounter_zero]
    omega
  | cons s rest ih =>
    rw [find_close] at h
    intro j hj
    cases j with
    | zero => rw [depthCounter_zero]; omega
    | succ j' =>
      simp only [List.length_cons] at hj
      rw [depthCounter_cons]
      by_cases h1 : s = "("
      · rw [if_pos h1] at h
        rw [if_pos h1]
        exact ih (d + 1) (by omega) (by simpa using h) j' (by omega)
      · by_cases h2 : s = ")"
        · rw [if_neg h1, if_pos h2] at h
          rw [if_neg h1, if_pos h2]
          by_cases h3 : d - 1 = 0
          · rw [if_pos h3] at h
            exact absurd h (by simp)
          · rw [if_neg h3] at h
            exact ih (d - 1) (by omega) (by simpa using h) j' (by omega)
        · rw [if_neg h1, if_neg h2] at h
          rw [if_neg h1, if_neg h2]
          exact ih d hd (by simpa using h) j' (by omega)

/-- Completeness: if position `i` is the first to bring the depth counter to
0, the scan returns exactly `i`. -/
theorem find_close_complete (toks : List String) (i : Nat)
    (hlt : i < toks.length) (hz : depthCounter 1 toks (i + 1) = 0)
    (hmin : ∀ j, j ≤ i → depthCounter 1 toks j ≠ 0) :
    find_close toks 1 = some i := by
  cases h : find_close toks 1 with
  | none => exact absurd hz (find_close_none toks 1 le_rfl h (i + 1) (by omega))
  | some i' =>
    obtain ⟨hlt', hat', hz', hmin'⟩ := find_close_some toks 1 i' le_rfl h
    have hle1 : i' ≤ i := by
      by_contra hcon
      exact hmin' (i + 1) (by omega) hz
    have hle2 : i ≤ i' := by
      by_contra hcon
      exact hmin (i' + 1) (by omega) hz'
    have : i = i' := by omega
    subst this
    rfl

theorem parse_cons_open_none (rest : List String) (h : find_close rest 1 = none) :
    parse ("(" :: rest) = .error .UnmatchedOpen := by
  rw [parse]
  simp [Operator.maybe, h]

theorem parse_cons_open_some_ok (rest : List String) (c : Nat) (inner : Node)
    (h : find_close rest 1 = some c) (hi : parse (rest.take c) = .ok inner) :
    parse ("(" :: rest) = parse_rest (.Enclosure inner) (rest.drop (c + 1)) := by
  rw [parse]
  simp [Operator.maybe, h, hi]

theorem parse_cons_open_some_err (rest : List String) (c : Nat) (e : ParseError)
    (h : find_close rest 1 = some c) (he : parse (rest.take c) = .error e) :
    parse ("(" :: rest) = .error e := by
  rw [parse]
  simp [Operator.maybe, h, he]

theorem cmp_precedence_eval (a b : Operator) :
    a.cmp_precedence b =
      (if a.precedence < b.precedence then Ordering.lt
       else if a.precedence = b.precedence then Ordering.eq else Ordering.gt) := by
  cases a <;> cases b <;> decide

theorem cmp_precedence_le_iff (a b : Operator) :
    (a.cmp_precedence b = .lt ∨ a.cmp_precedence b = .eq) ↔ a.precedence ≤ b.precedence := by
  cases a <;> cases b <;> decide

theorem cmp_precedence_gt_iff (a b : Operator) :
    a.cmp_precedence b = .gt ↔ b.precedence < a.precedence := by
  cases a <;> cases b <;> decide

/-- Composition concatenates the leaves of the left operand and the
right-hand subtree, in order. -/
theorem compose_leaves (op : Operator) (left : Node) :
    ∀ into, (compose_with_precedence op left into).leaves = left.leaves ++ into.leaves := by
  intro into
  induction into with
  | Leaf s => simp [compose_with_precedence, Node.leaves]
  | Enclosure n ih => simp [compose_with_precedence, Node.leaves]
  | Operation op2 l2 r2 ihl ihr =>
    rw [compose_with_precedence]
    cases h : op.cmp_precedence op2 with
    | lt => simp [Node.leaves]
    | eq => simp [Node.leaves]
    | gt => simp [Node.leaves, ihl, List.append_assoc]

/-- Composition preserves the right-spine precedence invariant. -/
theorem compose_rightSpineInv (op : Operator) (left : Node) :
    ∀ into, rightSpineInv left = true → rightSpineInv into = true →
      rightSpineInv (compose_with_precedence op left into) = true := by
  intro into
  induction into with
  | Leaf s =>
    intro hl hi
    simp [compose_with_precedence, rightSpineInv, rootPrecBound, hl, hi]
  | Enclosure m ih =>
    intro hl hi
    simp only [rightSpineInv] at hi
    simp [compose_with_precedence, rightSpineInv, rootPrecBound, hl, hi]
  | Operation op2 l2 r2 ihl ihr =>
    intro hl hi
    simp only [rightSpineInv, Bool.and_eq_true] at hi
    obtain ⟨⟨hil, hir⟩, hib⟩ := hi
    rw [compose_with_precedence]
    cases h : op.cmp_precedence op2 with
    | lt =>
      have hle : op.precedence ≤ op2.precedence :=
        (cmp_precedence_le_iff op op2).mp (Or.inl h)
      simp only [rightSpineInv, Bool.and_eq_true]
      exact ⟨⟨hl, by simp [rightSpineInv, hil, hir, hib]⟩, by simp [rootPrecBound, hle]⟩
    | eq =>
      have hle : op.precedence ≤ op2.precedence :=
        (cmp_precedence_le_iff op op2).mp (Or.inr h)
      simp only [rightSpineInv, Bool.and_eq_true]
      exact ⟨⟨hl, by simp [rightSpineInv, hil, hir, hib]⟩, by simp [rootPrecBound, hle]⟩
    | gt =>
      simp only [rightSpineInv, Bool.and_eq_true]
      exact ⟨⟨ihl hl hil, hir⟩, hib⟩

theorem identTok_open : identTok "(" = false := by decide

theorem identTok_close : identTok ")" = false := by decide

theorem identTok_of_op (t : String) (op : Operator) (h : Operator.maybe t = some op) :
    identTok t = false := by
  simp [identTok, h]

theorem identTokens_nil : identTokens [] = [] := rfl

theorem identTokens_cons_ident (t : String) (h : identTok t = true) (rest : List String) :
    identTokens (t :: rest) = t :: identTokens rest := by
  simp [identTokens, List.filter_cons, h]

theorem identTokens_cons_nonident (t : String) (h : identTok t = false) (rest : List String) :
    identTokens (t :: rest) = identTokens rest := by
  simp [identTokens, List.filter_cons, h]

theorem identTokens_append (l1 l2 : List String) :
    identTokens (l1 ++ l2) = identTokens l1 ++ identTokens l2 := by
  simp [identTokens, List.filter_append]

/-- Dropping the token at a close-brace position: the identifier tokens of
the whole slice are those before the close brace followed by those after. -/
theorem identTokens_split_at_close (toks : List String) (c : Nat)
    (hlt : c < toks.length) (hat : toks[c]? = some ")") :
    identTokens toks = identTokens (toks.take c) ++ identTokens (toks.drop (c + 1)) := by
  conv_lhs => rw [← List.take_append_drop c toks]
  rw [identTokens_append]
  congr 1
  have hdrop : toks.drop c = ")" :: toks.drop (c + 1) := by
    rw [List.drop_eq_getElem_cons hlt]
    congr 1
    have := List.getElem?_eq_getElem hlt
    rw [this] at hat
    exact Option.some.inj hat
  rw [hdrop, identTokens_cons_nonident _ identTok_close]

/-- Combined induction: any successful parse yields a tree whose leaves are
exactly the identifier tokens of the input and which satisfies the
right-spine precedence invariant. -/
theorem parse_aux : ∀ (N : Nat) (toks : List String), toks.length ≤ N →
    (∀ n, parse toks = .ok n →
      n.leaves = identTokens toks ∧ rightSpineInv n = true) ∧
    (∀ left n, parse_rest left toks = .ok n →
      n.leaves = left.leaves ++ identTokens toks ∧
      (rightSpineInv left = true → rightSpineInv n = true)) := by
  intro N
  induction N with
  | zero =>
    intro toks h
    obtain rfl : toks = [] := List.eq_nil_of_length_eq_zero (Nat.le_zero.mp h)
    constructor
    · intro n hn
      rw [parse_nil] at hn
      exact absurd hn (by simp)
    · intro left n hn
      rw [parse_rest_nil] at hn
      obtain rfl : left = n := by simpa using hn
      exact ⟨by simp [identTokens_nil], fun h => h⟩
  | succ N ih =>
    intro toks hlen
    constructor
    · intro n hn
      cases toks with
      | nil =>
        rw [parse_nil] at hn
        exact absurd hn (by simp)
      | cons first rest =>
        simp only [List.length_cons, Nat.add_le_add_iff_right] at hlen
        by_cases hop : (Operator.maybe first).isSome
        · rw [parse_cons_opsym first rest hop] at hn
          exact absurd hn (by simp)
        · by_cases hcl : first = ")"
          · subst hcl
            rw [parse_cons_close] at hn
            exact absurd hn (by simp)
          · by_cases hopn : first = "("
            · subst hopn
              cases hfc : find_close rest 1 with
              | none =>
                rw [parse_cons_open_none rest hfc] at hn
                exact absurd hn (by simp)
              | some c =>
                cases hpi : parse (rest.take c) with
                | error e =>
                  rw [parse_cons_open_some_err rest c e hfc hpi] at hn
                  exact absurd hn (by simp)
                | ok inner =>
                  rw [parse_cons_open_some_ok rest c inner hfc hpi] at hn
                  have hinner := ((ih (rest.take c)
                    (by simpa [List.length_take] using
                      Nat.le_trans (Nat.min_le_right c rest.length) hlen)).1 inner hpi)
                  have hrest := ((ih (rest.drop (c + 1))
                    (by simp only [List.length_drop]; omega)).2 (.Enclosure inner) n hn)
                  obtain ⟨hcr, hcat, _, _⟩ := find_close_some rest 1 c le_rfl hfc
                  constructor
                  · rw [hrest.1]
                    rw [identTokens_cons_nonident _ identTok_open,
                      identTokens_split_at_close rest c hcr hcat]
                    simp [Node.leaves, hinner.1]
                  · exact hrest.2 (by simpa [rightSpineInv] using hinner.2)
            · have hid : isIdent first :=
                ⟨Option.not_isSome_iff_eq_none.mp hop, hopn, hcl⟩
              rw [parse_cons_ident first hid rest] at hn
              have hrest := (ih rest hlen).2 (.Leaf first) n hn
              constructor
              · rw [hrest.1, identTokens_cons_ident first
                  ((isIdent_iff_identTok first).mp hid) rest]
                simp [Node.leaves]
              · exact hrest.2 (by simp [rightSpineInv])
    · intro left n hn
      cases toks with
      | nil =>
        rw [parse_rest_nil] at hn
        obtain rfl : left = n := by simpa using hn
        exact ⟨by simp [identTokens_nil], fun h => h⟩
      | cons first rest2 =>
        simp only [List.length_cons, Nat.add_le_add_iff_right] at hlen
        cases hmo : Operator.maybe first with
        | none =>
          rw [parse_rest_cons_nonop first hmo left rest2] at hn
          exact absurd hn (by simp)
        | some op =>
          rw [parse_rest_cons_op first op hmo left rest2] at hn
          cases hp : parse rest2 with
          | error e =>
            rw [hp] at hn
            exact absurd hn (by simp)
          | ok into =>
            rw [hp] at hn
            obtain rfl : compose_with_precedence op left into = n := by simpa using hn
            have hinto := (ih rest2 hlen).1 into hp
            constructor
            · rw [compose_leaves, hinto.1,
                identTokens_cons_nonident first (identTok_of_op first op hmo) rest2]
            · intro hl
              exact compose_rightSpineInv op left into hl hinto.2

/-- C1: the tree composer satisfies its full contract: a `Leaf` or
`Enclosure` (group) right-hand subtree is attached directly under a new
`Operation`; an `Operation` right-hand subtree whose root binds at least as
tightly stays unchanged under the new root; otherwise the new operator is
recursively rotated into the existing root's left operand. -/
theorem compose_with_precedence_contract (op : Operator) (left : Node) :
    (∀ s, compose_with_precedence op left (.Leaf s) = .Operation op left (.Leaf s)) ∧
    (∀ g, compose_with_precedence op left (.Enclosure g) =
      .Operation op left (.Enclosure g)) ∧
    (∀ op2 l2 r2, op.precedence ≤ op2.precedence →
      compose_with_precedence op left (.Operation op2 l2 r2) =
        .Operation op left (.Operation op2 l2 r2)) ∧
    (∀ op2 l2 r2, op2.precedence < op.precedence →
      compose_with_precedence op left (.Operation op2 l2 r2) =
        .Operation op2 (compose_with_precedence op left l2) r2) := by
  refine ⟨fun s => by simp [compose_with_precedence],
    fun g => by simp [compose_with_precedence], ?_, ?_⟩
  · intro op2 l2 r2 hle
    rw [compose_with_precedence]
    cases h : op.cmp_precedence op2 with
    | lt => rfl
    | eq => rfl
    | gt =>
      have := (cmp_precedence_gt_iff op op2).mp h
      omega
  · intro op2 l2 r2 hlt
    rw [compose_with_precedence]
    cases h : op.cmp_precedence op2 with
    | lt =>
      have := (cmp_precedence_le_iff op op2).mp (Or.inl h)
      omega
    | eq =>
      have := (cmp_precedence_le_iff op op2).mp (Or.inr h)
      omega
    | gt => rfl

theorem compose_with_precedence_contract_witness :
    compose_with_precedence .mul (.Leaf "x") (.Operation .add (.Leaf "y") (.Leaf "z")) =
      .Operation .add (compose_with_precedence .mul (.Leaf "x") (.Leaf "y")) (.Leaf "z") :=
  (compose_with_precedence_contract .mul (.Leaf "x")).2.2.2 .add (.Leaf "y") (.Leaf "z")
    (by decide)

/-- C4 (counterexample): on `[a, +, b, -, c]` — two equal-precedence
operators — the outer node of the result holds `Add`, the earlier
(left-ward) operator, not the later one `Sub`: the later operator's
operation is the inner (right-child) node. -/
theorem tie_break_outer_counterexample :
    parse ["a", "+", "b", "-", "c"] =
      .ok (.Operation .add (.Leaf "a") (.Operation .sub (.Leaf "b") (.Leaf "c"))) ∧
    (Operator.add ≠ Operator.sub) := by
  constructor
  · simp [parse, parse_rest, Operator.maybe, compose_with_precedence,
      cmp_precedence_eval, Operator.precedence]
  · decide

/-- C4 (amended): for a chain of equal-precedence operators, ties are
resolved by keeping the earlier (left-ward) operator as the outer node, so
the tree nests rightward; in particular `parse [a, -, b, -, c]` is
`Operation Sub (Leaf a) (Operation Sub (Leaf b) (Leaf c))`. -/
theorem tie_chain_right_nested (a b c : String)
    (ha : isIdent a) (hb : isIdent b) (hc : isIdent c) :
    (∀ (op op2 : Operator) (left l2 r2 : Node), op.precedence = op2.precedence →
      compose_with_precedence op left (.Operation op2 l2 r2) =
        .Operation op left (.Operation op2 l2 r2)) ∧
    parse [a, "-", b, "-", c] =
      .ok (.Operation .sub (.Leaf a) (.Operation .sub (.Leaf b) (.Leaf c))) := by
  constructor
  · intro op op2 left l2 r2 heq
    rw [compose_with_precedence]
    cases h : op.cmp_precedence op2 with
    | lt => rfl
    | eq => rfl
    | gt =>
      have := (cmp_precedence_gt_iff op op2).mp h
      omega
  · rw [parse_cons_ident a ha, parse_rest_cons_op "-" .sub rfl,
      parse_cons_ident b hb, parse_rest_cons_op "-" .sub rfl,
      parse_cons_ident c hc, parse_rest_nil]
    simp [compose_with_precedence, cmp_precedence_eval, Operator.precedence]

theorem tie_chain_right_nested_witness :
    parse ["a", "-", "b", "-", "c"] =
      .ok (.Operation .sub (.Leaf "a") (.Operation .sub (.Leaf "b") (.Leaf "c"))) :=
  (tie_chain_right_nested "a" "b" "c" (by decide) (by decide) (by decide)).2

/-- C5: for every token sequence on which `parse` succeeds, the returned
tree's leaves, read left to right, are exactly the input tokens that are
neither operator symbols nor group delimiters, in order, verbatim (the tree
is finite by construction as a value of the inductive type `Node`). -/
theorem parse_leaves_in_order (toks : List String) (n : Node)
    (h : parse toks = .ok n) : n.leaves = identTokens toks :=
  ((parse_aux toks.length toks le_rfl).1 n h).1

theorem parse_leaves_in_order_witness :
    Node.leaves (.Operation .add (.Leaf "x") (.Operation .mul (.Leaf "y") (.Leaf "z"))) =
      identTokens ["x", "+", "y", "*", "z"] :=
  parse_leaves_in_order ["x", "+", "y", "*", "z"]
    (.Operation .add (.Leaf "x") (.Operation .mul (.Leaf "y") (.Leaf "z")))
    (by simp [parse, parse_rest, Operator.maybe, compose_with_precedence,
      Operator.cmp_precedence, Operator.precedence]; decide)

/-- C10: every tree returned by `parse` satisfies the right-spine precedence
invariant: every `Operation` node anywhere in the tree (including inside
`Enclosure` nodes) whose right child is also an `Operation` has precedence
at most the right child's. -/
theorem parse_right_spine_invariant (toks : List String) (n : Node)
    (h : parse toks = .ok n) : rightSpineInv n = true :=
  ((parse_aux toks.length toks le_rfl).1 n h).2

theorem parse_right_spine_invariant_witness :
    rightSpineInv (.Operation .add (.Leaf "x") (.Operation .mul (.Leaf "y") (.Leaf "z"))) =
      true :=
  parse_right_spine_invariant ["x", "+", "y", "*", "z"]
    (.Operation .add (.Leaf "x") (.Operation .mul (.Leaf "y") (.Leaf "z")))
    (by simp [parse, parse_rest, Operator.maybe, compose_with_precedence,
      Operator.cmp_precedence, Operator.precedence]; decide)

/-- C2: precedence is honored in the documented example shapes, for any
identifier tokens `a`, `b`, `c`, `d`. -/
theorem parse_precedence_examples (a b c d : String)
    (ha : isIdent a) (hb : isIdent b) (hc : isIdent c) (hd : isIdent d) :
    parse [a, "+", b, "*", c] =
      .ok (.Operation .add (.Leaf a) (.Operation .mul (.Leaf b) (.Leaf c))) ∧
    parse [a, "*", b, "+", c] =
      .ok (.Operation .add (.Operation .mul (.Leaf a) (.Leaf b)) (.Leaf c)) ∧
    parse [a, "^", b, "*", c, "+", d] =
      .ok (.Operation .add
        (.Operation .mul (.Operation .exp (.Leaf a) (.Leaf b)) (.Leaf c))
        (.Leaf d)) := by
  refine ⟨?_, ?_, ?_⟩
  · rw [parse_cons_ident a ha, parse_rest_cons_op "+" .add rfl,
      parse_cons_ident b hb, parse_rest_cons_op "*" .mul rfl,
      parse_cons_ident c hc, parse_rest_nil]
    simp [compose_with_precedence, cmp_precedence_eval, Operator.precedence]
  · rw [parse_cons_ident a ha, parse_rest_cons_op "*" .mul rfl,
      parse_cons_ident b hb, parse_rest_cons_op "+" .add rfl,
      parse_cons_ident c hc, parse_rest_nil]
    simp [compose_with_precedence, cmp_precedence_eval, Operator.precedence]
  · rw [parse_cons_ident a ha, parse_rest_cons_op "^" .exp rfl,
      parse_cons_ident b hb, parse_rest_cons_op "*" .mul rfl,
      parse_cons_ident c hc, parse_rest_cons_op "+" .add rfl,
      parse_cons_ident d hd, parse_rest_nil]
    simp [compose_with_precedence, cmp_precedence_eval, Operator.precedence]

theorem parse_precedence_examples_witness :
    parse ["a", "+", "b", "*", "c"] =
      .ok (.Operation .add (.Leaf "a") (.Operation .mul (.Leaf "b") (.Leaf "c"))) :=
  (parse_precedence_examples "a" "b" "c" "d"
    (by decide) (by decide) (by decide) (by decide)).1

/-- C3: each documented malformed input fails with exactly the documented
error kind, for any identifier tokens `a`, `b`. -/
theorem parse_error_kinds (a b : String) (ha : isIdent a) (hb : isIdent b) :
    parse [] = .error .EmptyStream ∧
    parse ["+", a] = .error .LeadingOperator ∧
    parse [a, b] = .error .ExpectedOperator ∧
    parse ["(", a] = .error .UnmatchedOpen ∧
    parse [")", a] = .error .UnmatchedClose ∧
    parse [a, "+"] = .error .EmptyStream ∧
    parse ["(", ")"] = .error .EmptyStream := by
  refine ⟨parse_nil, ?_, ?_, ?_, parse_cons_close [a], ?_, ?_⟩
  · exact parse_cons_opsym "+" [a] (by decide)
  · rw [parse_cons_ident a ha, parse_rest_cons_nonop b hb.1]
  · have hfc : find_close [a] 1 = none := by
      rw [find_close, if_neg ha.2.1, if_neg ha.2.2]
      simp [find_close]
    exact parse_cons_open_none [a] hfc
  · rw [parse_cons_ident a ha, parse_rest_cons_op "+" .add rfl, parse_nil]
  · have hfc : find_close [")"] 1 = some 0 := by
      simp [find_close]
    exact parse_cons_open_some_err [")"] 0 .EmptyStream hfc (by rw [List.take_zero, parse_nil])

theorem parse_error_kinds_witness :
    parse ["x", "y"] = .error .ExpectedOperator :=
  (parse_error_kinds "x" "y" (by decide) (by decide)).2.2.1

/-- C7: grouping is preserved as explicit structure and is opaque to outside
composition: nested groups reproduce nested `Enclosure` nodes, and a
lower-precedence operation inside a group is not rotated by a
higher-precedence operator outside it, for any identifier tokens. -/
theorem parse_grouping_examples (a b c : String)
    (ha : isIdent a) (hb : isIdent b) (hc : isIdent c) :
    parse ["(", "(", a, ")", ")"] = .ok (.Enclosure (.Enclosure (.Leaf a))) ∧
    parse ["(", a, "+", b, ")", "*", c] =
      .ok (.Operation .mul (.Enclosure (.Operation .add (.Leaf a) (.Leaf b)))
        (.Leaf c)) := by
  have hpin : parse ["(", a, ")"] = .ok (.Enclosure (.Leaf a)) := by
    have hfc2 : find_close [a, ")"] 1 = some 1 := by
      simp [find_close, ha.2.1, ha.2.2]
    have hinner : parse (([a, ")"] : List String).take 1) = .ok (.Leaf a) := by
      show parse [a] = .ok (.Leaf a)
      rw [parse_cons_ident a ha, parse_rest_nil]
    rw [parse_cons_open_some_ok [a, ")"] 1 (.Leaf a) hfc2 hinner]
    show parse_rest (.Enclosure (.Leaf a)) [] = _
    rw [parse_rest_nil]
  constructor
  · have hfc1 : find_close ["(", a, ")", ")"] 1 = some 3 := by
      simp [find_close, ha.2.1, ha.2.2]
    have hinner1 : parse ((["(", a, ")", ")"] : List String).take 3) =
        .ok (.Enclosure (.Leaf a)) := by
      show parse ["(", a, ")"] = _
      exact hpin
    rw [parse_cons_open_some_ok ["(", a, ")", ")"] 3 (.Enclosure (.Leaf a)) hfc1 hinner1]
    show parse_rest (.Enclosure (.Enclosure (.Leaf a))) [] = _
    rw [parse_rest_nil]
  · have hfc1 : find_close [a, "+", b, ")", "*", c] 1 = some 3 := by
      simp [find_close, ha.2.1, ha.2.2, hb.2.1, hb.2.2]
    have hinner1 : parse (([a, "+", b, ")", "*", c] : List String).take 3) =
        .ok (.Operation .add (.Leaf a) (.Leaf b)) := by
      show parse [a, "+", b] = _
      rw [parse_cons_ident a ha, parse_rest_cons_op "+" .add rfl,
        parse_cons_ident b hb, parse_rest_nil]
      simp [compose_with_precedence]
    rw [parse_cons_open_some_ok [a, "+", b, ")", "*", c] 3
      (.Operation .add (.Leaf a) (.Leaf b)) hfc1 hinner1]
    show parse_rest (.Enclosure (.Operation .add (.Leaf a) (.Leaf b))) ["*", c] = _
    rw [parse_rest_cons_op "*" .mul rfl, parse_cons_ident c hc, parse_rest_nil]
    simp [compose_with_precedence]

theorem parse_grouping_examples_witness :
    parse ["(", "(", "a", ")", ")"] = .ok (.Enclosure (.Enclosure (.Leaf "a"))) :=
  (parse_grouping_examples "a" "b" "c" (by decide) (by decide) (by decide)).1

/-- C6: the parenthetical matcher's contract in terms of the depth counter:
if some position `i` first brings the depth (which starts at 1) to 0, the
tokens strictly before `i` form the group's inner expression and the tokens
strictly after `i` are the continuation (the matching close brace at `i`
appears in neither part); if the depth never reaches 0, the parse fails with
`UnmatchedOpen`. -/
theorem parse_enclosed_depth_spec (toks : List String) :
    (∀ i, i < toks.length → depthCounter 1 toks (i + 1) = 0 →
      (∀ j, j ≤ i → depthCounter 1 toks j ≠ 0) →
      parse_enclosed toks =
        match parse (toks.take i) with
        | .error e => .error e
        | .ok inner => .ok (.Enclosure inner, toks.drop (i + 1))) ∧
    ((∀ j, j ≤ toks.length → depthCounter 1 toks j ≠ 0) →
      parse_enclosed toks = .error .UnmatchedOpen) := by
  constructor
  · intro i hlt hz hmin
    rw [parse_enclosed, find_close_complete toks i hlt hz hmin]
  · intro hnever
    cases h : find_close toks 1 with
    | none => rw [parse_enclosed, h]
    | some c =>
      obtain ⟨hc, _, hcz, _⟩ := find_close_some toks 1 c le_rfl h
      exact absurd hcz (hnever (c + 1) (by omega))

theorem parse_enclosed_depth_spec_witness :
    parse_enclosed ["a", ")", "b"] = .ok (.Enclosure (.Leaf "a"), ["b"]) := by
  have h := (parse_enclosed_depth_spec ["a", ")", "b"]).1 1 (by decide) (by decide)
    (by intro j hj; interval_cases j <;> decide)
  rw [h]
  simp [parse, parse_rest, Operator.maybe]

/-- C8: both recursions terminate on every input. `parse` and
`compose_with_precedence` are total Lean functions (every input is mapped to
a result), and the measures the claim names do strictly decrease at every
recursive call site: the group's inner slice and the continuation after the
group are strictly shorter than the input `"(" :: rest`, the tokens after an
operator are strictly shorter than the stream at the operator, and the left
subtree `compose` descends into is strictly smaller than `into`. -/
theorem recursion_measures_decrease :
    (∀ toks : List String, ∃ r : Except ParseError Node, parse toks = r) ∧
    (∀ (op : Operator) (left into : Node),
      ∃ r : Node, compose_with_precedence op left into = r) ∧
    (∀ (rest : List String) (c : Nat), find_close rest 1 = some c →
      (rest.take c).length < ("(" :: rest).length ∧
      (rest.drop (c + 1)).length < ("(" :: rest).length) ∧
    (∀ (o : String) (rest2 : List String), rest2.length < (o :: rest2).length) ∧
    (∀ (op2 : Operator) (l2 r2 : Node), l2.size < (Node.Operation op2 l2 r2).size) := by
  refine ⟨fun toks => ⟨parse toks, rfl⟩,
    fun op left into => ⟨compose_with_precedence op left into, rfl⟩, ?_, ?_, ?_⟩
  · intro rest c h
    have hc := (find_close_some rest 1 c le_rfl h).1
    constructor
    · simp only [List.length_take, List.length_cons]
      omega
    · simp only [List.length_drop, List.length_cons]
      omega
  · intro o rest2
    simp
  · intro op2 l2 r2
    simp [Node.size]
    omega

theorem recursion_measures_decrease_witness :
    ((([")"] : List String).take 0).length < (["(", ")"] : List String).length ∧
      (([")"] : List String).drop 1).length < (["(", ")"] : List String).length) :=
  recursion_measures_decrease.2.2.1 [")"] 0 (by decide)

/-- A well-formed term or expression is brace-balanced: open and close
braces occur equally often, and no prefix has more closes than opens. -/
theorem wf_balanced (b : Bool) (ts : List String) (h : WF b ts) :
    ts.countP (· == ")") = ts.countP (· == "(") ∧
    ∀ j, (ts.take j).countP (· == ")") ≤ (ts.take j).countP (· == "(") := by
  induction h with
  | ident t ht =>
    have h1 : (t == "(") = false := by simp [ht.2.1]
    have h2 : (t == ")") = false := by simp [ht.2.2]
    refine ⟨by simp [List.countP_cons, h1, h2], fun j => ?_⟩
    cases j with
    | zero => simp
    | succ j' => simp [List.take_succ_cons, List.countP_cons, h1, h2]
  | group ts hts ih =>
    obtain ⟨ihe, ihp⟩ := ih
    constructor
    · simp only [List.cons_append, List.countP_cons, List.countP_append]
      simp
      omega
    · intro j
      cases j with
      | zero => simp
      | succ j' =>
        simp only [List.cons_append, List.take_succ_cons, List.countP_cons,
          List.take_append_eq_append_take, List.countP_append]
        have hp := ihp j'
        have hb1 : (List.take (j' - ts.length) [")"]).countP (· == ")") ≤ 1 := by
          refine le_trans (List.countP_le_length _) ?_
          simp [List.length_take]
        simp
        omega
  | single ts hts ih => exact ih
  | comp ts o op rest hts hmo hrest ih1 ih2 =>
    have hne1 : o ≠ "(" := by
      intro he
      rw [he] at hmo
      simp [Operator.maybe] at hmo
    have hne2 : o ≠ ")" := by
      intro he
      rw [he] at hmo
      simp [Operator.maybe] at hmo
    have h1 : (o == "(") = false := by simp [hne1]
    have h2 : (o == ")") = false := by simp [hne2]
    obtain ⟨ihe1, ihp1⟩ := ih1
    obtain ⟨ihe2, ihp2⟩ := ih2
    constructor
    · simp only [List.countP_append, List.countP_cons, h1, h2]
      simp
      omega
    · intro j
      rw [List.take_append_eq_append_take, List.countP_append, List.countP_append]
      have ha := ihp1 j
      have hb : ∀ k, ((o :: rest).take k).countP (· == ")") ≤
          ((o :: rest).take k).countP (· == "(") := by
        intro k
        cases k with
        | zero => simp
        | succ k' =>
          rw [List.take_succ_cons, List.countP_cons, List.countP_cons]
          have := ihp2 k'
          simp [h1, h2]
          omega
      have hb' := hb (j - ts.length)
      omega

/-- After a balanced expression, the matching-close scan finds the close
brace immediately following it. -/
theorem find_close_after_balanced (ts tail : List String) (h : WF false ts) :
    find_close (ts ++ ")" :: tail) 1 = some ts.length := by
  obtain ⟨he, hp⟩ := wf_balanced false ts h
  apply find_close_complete
  · simp only [List.length_append, List.length_cons]
    omega
  · unfold depthCounter
    have htake : (ts ++ ")" :: tail).take (ts.length + 1) = ts ++ [")"] := by
      rw [List.take_append_eq_append_take, List.take_of_length_le (by omega)]
      congr 1
      have : ts.length + 1 - ts.length = 1 := by omega
      rw [this]
      simp
    rw [htake]
    simp only [List.countP_append, List.countP_cons]
    simp
    omega
  · intro j hj
    unfold depthCounter
    have htake : (ts ++ ")" :: tail).take j = ts.take j := by
      rw [List.take_append_eq_append_take, Nat.sub_eq_zero_of_le hj, List.take_zero,
        List.append_nil]
    rw [htake]
    have := hp j
    omega

/-- Simultaneous induction over the grammar: a term followed by any
continuation parses to its own tree and hands the continuation to
`parse_rest`; a well-formed expression parses successfully. -/
theorem parse_wf_aux (b : Bool) (ts : List String) (h : WF b ts) :
    (b = true → ∃ left, ∀ tail, parse (ts ++ tail) = parse_rest left tail) ∧
    (b = false → ∃ n, parse ts = .ok n) := by
  induction h with
  | ident t ht =>
    refine ⟨fun _ => ⟨.Leaf t, fun tail => ?_⟩, fun hf => (nomatch hf)⟩
    rw [List.singleton_append]
    exact parse_cons_ident t ht tail
  | group ts hts ih =>
    refine ⟨fun _ => ?_, fun hf => (nomatch hf)⟩
    obtain ⟨n, hn⟩ := ih.2 rfl
    refine ⟨.Enclosure n, fun tail => ?_⟩
    have hsh : ("(" :: ts ++ [")"]) ++ tail = "(" :: (ts ++ ")" :: tail) := by
      simp
    rw [hsh]
    have hfc := find_close_after_balanced ts tail hts
    have htake : (ts ++ ")" :: tail).take ts.length = ts := by
      rw [List.take_append_eq_append_take, List.take_length, Nat.sub_self,
        List.take_zero, List.append_nil]
    have hdrop : (ts ++ ")" :: tail).drop (ts.length + 1) = tail := by
      rw [List.drop_append_eq_append_drop, List.drop_of_length_le (by omega)]
      have : ts.length + 1 - ts.length = 1 := by omega
      rw [this]
      simp
    rw [parse_cons_open_some_ok (ts ++ ")" :: tail) ts.length n hfc
      (by rw [htake]; exact hn)]
    rw [hdrop]
  | single ts hts ih =>
    refine ⟨fun hf => (nomatch hf), fun _ => ?_⟩
    obtain ⟨left, hleft⟩ := ih.1 rfl
    refine ⟨left, ?_⟩
    have hnil := hleft []
    rw [List.append_nil] at hnil
    rw [hnil, parse_rest_nil]
  | comp ts o op rest hts hmo hrest ih1 ih2 =>
    refine ⟨fun hf => (nomatch hf), fun _ => ?_⟩
    obtain ⟨left, hleft⟩ := ih1.1 rfl
    obtain ⟨n, hn⟩ := ih2.2 rfl
    refine ⟨compose_with_precedence op left n, ?_⟩
    rw [hleft (o :: rest), parse_rest_cons_op o op hmo, hn]

/-- C9: for every token sequence matching the grammar
`expr := term (operator term)*` (a term being an identifier token or a
parenthesized well-formed non-empty expression), `parse` returns a tree and
never reaches any failure branch. -/
theorem parse_wellformed_total (toks : List String) (h : WF false toks) :
    ∃ n, parse toks = .ok n :=
  (parse_wf_aux false toks h).2 rfl

theorem parse_wellformed_total_witness :
    ∃ n, parse ["x", "+", "y"] = .ok n :=
  parse_wellformed_total ["x", "+", "y"]
    (.comp ["x"] "+" .add ["y"] (.ident "x" (by decide)) rfl
      (.single ["y"] (.ident "y" (by decide))))
